import Mathlib

/-!
Verification of the seekable counter-mode (CTR) keystream engine.

The development shallowly embeds the two implementations found in the
repository:

* the per-call engine (`ctr.go`): `initCTR`, `refill`, `XORKeyStream`
  (here `xorKS`), `ReadAt`;
* the shared-state engine (`part_000`): `setCTR`, `sReadAt`, together with
  the constructor `NewCTRReaderAt`.

Bytes are modelled as natural numbers; a well-formed byte is `< 256`.
Counters are byte lists in big-endian order, exactly as in the Go code.
Loops whose termination is not structural (the XOR-combine loop) take an
explicit fuel argument; `none` means the fuel ran out, and a result that is
`none` for every fuel corresponds to a non-terminating Go loop.
-/

set_option maxRecDepth 16384

namespace GoAesCtr

/-- Well-formed byte strings: every entry is an actual byte. -/
def ValidBytes (l : List Nat) : Prop := ∀ b ∈ l, b < 256

instance (l : List Nat) : Decidable (ValidBytes l) :=
  inferInstanceAs (Decidable (∀ b ∈ l, b < 256))

/-- Little-endian byte increment with carry.  This is the Go loop
`for i := len(ctr)-1; i >= 0; i-- { ctr[i]++; if ctr[i] != 0 { break } }`
applied to the reversed counter: the first cell is the least significant
byte; a byte that wraps to zero propagates the carry. -/
def incLE : List Nat → List Nat
  | [] => []
  | b :: rest =>
    if (b + 1) % 256 = 0 then 0 :: incLE rest else ((b + 1) % 256) :: rest

/-- Big-endian counter increment, as performed by `refill` and `setCTR`. -/
def incBytes (c : List Nat) : List Nat := (incLE c.reverse).reverse

/-- Little-endian add-with-carry of a block index into a counter.  Mirrors
`initCTR`'s loop: each step adds `n % 256` to the current byte, shifts `n`
right by eight bits, and folds an overflow of the byte addition back into
`n` as a carry. -/
def addLE : Nat → List Nat → List Nat
  | _, [] => []
  | n, b :: rest =>
    if n = 0 then b :: rest
    else
      let b' := (b + n % 256) % 256
      let n' := if b' < b then n / 256 + 1 else n / 256
      b' :: addLE n' rest

/-- `initCTR`'s direct big-endian addition of a block index into the
initial counter. -/
def addCtr (n : Nat) (c : List Nat) : List Nat := (addLE n c.reverse).reverse

/-- Little-endian numeric value of a byte string. -/
def leVal : List Nat → Nat
  | [] => 0
  | b :: rest => b + 256 * leVal rest

/-- Big-endian numeric value of a byte string (the reading the spec uses
for counters). -/
def beVal (l : List Nat) : Nat := leVal l.reverse

/-- Go's `xorBytes`: xor entries pointwise, up to the shorter length. -/
def xorBytes (a b : List Nat) : List Nat := List.zipWith (· ^^^ ·) a b

theorem incLE_length (l : List Nat) : (incLE l).length = l.length := by
  induction l with
  | nil => rfl
  | cons b rest ih =>
    by_cases h : (b + 1) % 256 = 0 <;> simp [incLE, h, ih]

theorem incBytes_length (c : List Nat) : (incBytes c).length = c.length := by
  simp [incBytes, incLE_length]

theorem addLE_length (n : Nat) (l : List Nat) : (addLE n l).length = l.length := by
  induction l generalizing n with
  | nil => rfl
  | cons b rest ih =>
    by_cases h : n = 0
    · simp [addLE, h]
    · simp [addLE, h, ih]

theorem addCtr_length (n : Nat) (c : List Nat) : (addCtr n c).length = c.length := by
  simp [addCtr, addLE_length]

theorem validBytes_reverse {l : List Nat} (h : ValidBytes l) : ValidBytes l.reverse := by
  intro b hb
  exact h b (List.mem_reverse.mp hb)

theorem incLE_cons_wrap {x : Nat} (hc : (x + 1) % 256 = 0) (rest : List Nat) :
    incLE (x :: rest) = 0 :: incLE rest := by
  simp only [incLE]
  rw [if_pos hc]

theorem incLE_cons_stop {x : Nat} (hc : (x + 1) % 256 ≠ 0) (rest : List Nat) :
    incLE (x :: rest) = ((x + 1) % 256) :: rest := by
  simp only [incLE]
  rw [if_neg hc]

theorem validBytes_incLE {l : List Nat} (h : ValidBytes l) : ValidBytes (incLE l) := by
  induction l with
  | nil => intro b hb; simp [incLE] at hb
  | cons x rest ih =>
    have hrest : ValidBytes rest := fun b hb => h b (List.mem_cons_of_mem _ hb)
    by_cases hc : (x + 1) % 256 = 0
    · rw [incLE_cons_wrap hc]
      intro b hb
      rcases List.mem_cons.mp hb with hb | hb
      · omega
      · exact ih hrest b hb
    · rw [incLE_cons_stop hc]
      intro b hb
      rcases List.mem_cons.mp hb with hb | hb
      · subst hb; exact Nat.mod_lt _ (by norm_num)
      · exact h b (List.mem_cons_of_mem _ hb)

theorem validBytes_incBytes {c : List Nat} (h : ValidBytes c) : ValidBytes (incBytes c) :=
  validBytes_reverse (validBytes_incLE (validBytes_reverse h))

theorem addLE_zero (l : List Nat) : addLE 0 l = l := by
  cases l with
  | nil => rfl
  | cons b rest => simp [addLE]

theorem addLE_cons {n : Nat} (h0 : n ≠ 0) (b : Nat) (rest : List Nat) :
    addLE n (b :: rest) =
      ((b + n % 256) % 256) ::
        addLE (if (b + n % 256) % 256 < b then n / 256 + 1 else n / 256) rest := by
  simp only [addLE]
  rw [if_neg h0]

theorem validBytes_addLE {l : List Nat} (h : ValidBytes l) (n : Nat) :
    ValidBytes (addLE n l) := by
  induction l generalizing n with
  | nil => intro b hb; simp [addLE] at hb
  | cons x rest ih =>
    have hrest : ValidBytes rest := fun b hb => h b (List.mem_cons_of_mem _ hb)
    by_cases h0 : n = 0
    · subst h0; simpa [addLE_zero] using h
    · rw [addLE_cons h0]
      intro b hb
      rcases List.mem_cons.mp hb with hb | hb
      · subst hb; exact Nat.mod_lt _ (by norm_num)
      · exact ih hrest _ b hb

theorem validBytes_addCtr {c : List Nat} (h : ValidBytes c) (n : Nat) :
    ValidBytes (addCtr n c) :=
  validBytes_reverse (validBytes_addLE (validBytes_reverse h) n)

theorem leVal_lt {l : List Nat} (h : ValidBytes l) : leVal l < 256 ^ l.length := by
  induction l with
  | nil => simp [leVal]
  | cons b rest ih =>
    have hb : b < 256 := h b (List.mem_cons_self _ _)
    have hrest : ValidBytes rest := fun x hx => h x (List.mem_cons_of_mem _ hx)
    have hr := ih hrest
    have h2 : 256 * (leVal rest + 1) ≤ 256 * 256 ^ rest.length :=
      Nat.mul_le_mul_left 256 hr
    simp only [leVal, List.length_cons, pow_succ]
    omega

/-- Every digit below the base can be absorbed into a truncated big sum:
`c + 256 * (X mod 256^k)` is `(c + 256*X) mod 256^(k+1)`. -/
theorem digit_mod (c X k : Nat) (hc : c < 256) :
    c + 256 * (X % 256 ^ k) = (c + 256 * X) % 256 ^ (k + 1) := by
  have hpos : 0 < (256 : Nat) ^ k := Nat.pos_pow_of_pos k (by norm_num)
  have h1 : X % 256 ^ k < 256 ^ k := Nat.mod_lt _ hpos
  have hsplit : X = 256 ^ k * (X / 256 ^ k) + X % 256 ^ k :=
    (Nat.div_add_mod X (256 ^ k)).symm
  have hsum : c + 256 * X =
      c + 256 * (X % 256 ^ k) + 256 ^ (k + 1) * (X / 256 ^ k) := by
    calc c + 256 * X
        = c + 256 * (256 ^ k * (X / 256 ^ k) + X % 256 ^ k) := by rw [← hsplit]
      _ = c + 256 * (X % 256 ^ k) + 256 ^ (k + 1) * (X / 256 ^ k) := by
          rw [pow_succ]; ring
  have hlt : c + 256 * (X % 256 ^ k) < 256 ^ (k + 1) := by
    rw [pow_succ]
    have := Nat.mul_le_mul_left 256 (Nat.succ_le_of_lt h1)
    omega
  rw [hsum, Nat.add_mul_mod_self_left, Nat.mod_eq_of_lt hlt]

theorem leVal_incLE {l : List Nat} (h : ValidBytes l) :
    leVal (incLE l) = (leVal l + 1) % 256 ^ l.length := by
  induction l with
  | nil => simp [incLE, leVal]
  | cons b rest ih =>
    have hb : b < 256 := h b (List.mem_cons_self _ _)
    have hrest : ValidBytes rest := fun x hx => h x (List.mem_cons_of_mem _ hx)
    by_cases hc : (b + 1) % 256 = 0
    · have hb255 : b = 255 := by omega
      subst hb255
      rw [incLE_cons_wrap hc]
      simp only [leVal, List.length_cons]
      rw [ih hrest]
      have hd := digit_mod 0 (leVal rest + 1) rest.length (by norm_num)
      simp only [Nat.zero_add] at hd
      rw [hd]
      have harith : 256 * (leVal rest + 1) = 255 + 256 * leVal rest + 1 := by ring
      rw [harith, Nat.zero_add]
    · have hb1 : b + 1 < 256 := by omega
      rw [incLE_cons_stop hc]
      simp only [leVal, List.length_cons]
      rw [Nat.mod_eq_of_lt hb1]
      have hr := leVal_lt hrest
      have hlt : b + 256 * leVal rest + 1 < 256 ^ (rest.length + 1) := by
        rw [pow_succ]
        have := Nat.mul_le_mul_left 256 (Nat.succ_le_of_lt hr)
        omega
      rw [Nat.mod_eq_of_lt hlt]
      ring

theorem beVal_incBytes {c : List Nat} (h : ValidBytes c) :
    beVal (incBytes c) = (beVal c + 1) % 256 ^ c.length := by
  have := leVal_incLE (validBytes_reverse h)
  simpa [incBytes, beVal, List.reverse_reverse] using this

theorem leVal_addLE {l : List Nat} (h : ValidBytes l) (n : Nat) :
    leVal (addLE n l) = (leVal l + n) % 256 ^ l.length := by
  induction l generalizing n with
  | nil => simp [addLE, leVal, Nat.mod_one]
  | cons b rest ih =>
    have hb : b < 256 := h b (List.mem_cons_self _ _)
    have hrest : ValidBytes rest := fun x hx => h x (List.mem_cons_of_mem _ hx)
    by_cases h0 : n = 0
    · subst h0
      have hlt : leVal (b :: rest) < 256 ^ (b :: rest).length := leVal_lt h
      rw [addLE_zero, Nat.add_zero, Nat.mod_eq_of_lt hlt]
    · rw [addLE_cons h0]
      simp only [leVal, List.length_cons]
      by_cases hcar : (b + n % 256) % 256 < b
      · -- carry case: the byte addition overflowed, so 256 ≤ b + n % 256
        have hge : 256 ≤ b + n % 256 := by omega
        have hmod : (b + n % 256) % 256 = b + n % 256 - 256 := by omega
        rw [if_pos hcar, ih hrest, hmod]
        rw [digit_mod (b + n % 256 - 256) (leVal rest + (n / 256 + 1))
          rest.length (by omega)]
        have harith : b + n % 256 - 256 + 256 * (leVal rest + (n / 256 + 1)) =
            b + 256 * leVal rest + n := by omega
        rw [harith]
      · have hlt2 : b + n % 256 < 256 := by omega
        have hmod : (b + n % 256) % 256 = b + n % 256 := Nat.mod_eq_of_lt hlt2
        rw [if_neg hcar, ih hrest, hmod]
        rw [digit_mod (b + n % 256) (leVal rest + n / 256) rest.length hlt2]
        have harith : b + n % 256 + 256 * (leVal rest + n / 256) =
            b + 256 * leVal rest + n := by omega
        rw [harith]

theorem beVal_addCtr {c : List Nat} (h : ValidBytes c) (n : Nat) :
    beVal (addCtr n c) = (beVal c + n) % 256 ^ c.length := by
  have := leVal_addLE (validBytes_reverse h) n
  simpa [addCtr, beVal, List.reverse_reverse] using this

theorem leVal_inj {a b : List Nat} (ha : ValidBytes a) (hb : ValidBytes b)
    (hlen : a.length = b.length) (h : leVal a = leVal b) : a = b := by
  induction a generalizing b with
  | nil => cases b with
    | nil => rfl
    | cons y ys => simp at hlen
  | cons x xs ih =>
    cases b with
    | nil => simp at hlen
    | cons y ys =>
      have hx : x < 256 := ha x (List.mem_cons_self _ _)
      have hy : y < 256 := hb y (List.mem_cons_self _ _)
      have hxs : ValidBytes xs := fun z hz => ha z (List.mem_cons_of_mem _ hz)
      have hys : ValidBytes ys := fun z hz => hb z (List.mem_cons_of_mem _ hz)
      simp only [leVal] at h
      have hxy : x = y ∧ leVal xs = leVal ys := by omega
      have hlen' : xs.length = ys.length := by simpa using hlen
      rw [hxy.1, ih hxs hys hlen' hxy.2]

theorem beVal_inj {a b : List Nat} (ha : ValidBytes a) (hb : ValidBytes b)
    (hlen : a.length = b.length) (h : beVal a = beVal b) : a = b := by
  have := leVal_inj (validBytes_reverse ha) (validBytes_reverse hb)
    (by simpa using hlen) h
  have h2 := congrArg List.reverse this
  simpa using h2

theorem validBytes_iterate_incBytes {c : List Nat} (h : ValidBytes c) (n : Nat) :
    ValidBytes (incBytes^[n] c) := by
  induction n with
  | zero => simpa
  | succ k ih =>
    rw [Function.iterate_succ_apply']
    exact validBytes_incBytes ih

theorem iterate_incBytes_length (c : List Nat) (n : Nat) :
    (incBytes^[n] c).length = c.length := by
  induction n with
  | zero => rfl
  | succ k ih =>
    rw [Function.iterate_succ_apply', incBytes_length, ih]

theorem beVal_iterate_incBytes {c : List Nat} (h : ValidBytes c) (n : Nat) :
    beVal (incBytes^[n] c) = (beVal c + n) % 256 ^ c.length := by
  induction n with
  | zero =>
    have := leVal_lt (validBytes_reverse h)
    simp only [Function.iterate_zero, id_eq, Nat.add_zero]
    rw [Nat.mod_eq_of_lt]
    simpa [beVal] using this
  | succ k ih =>
    rw [Function.iterate_succ_apply', beVal_incBytes (validBytes_iterate_incBytes h k),
      iterate_incBytes_length, ih, Nat.mod_add_mod]
    have harith : beVal c + k + 1 = beVal c + (k + 1) := by omega
    rw [harith]

/-- The two counter derivations agree: adding the block index directly
(`initCTR`) equals incrementing the counter that many times (`setCTR`). -/
theorem addCtr_eq_iterate {c : List Nat} (h : ValidBytes c) (n : Nat) :
    addCtr n c = incBytes^[n] c := by
  apply beVal_inj (validBytes_addCtr h n) (validBytes_iterate_incBytes h n)
    (by rw [addCtr_length, iterate_incBytes_length])
  rw [beVal_addCtr h n, beVal_iterate_incBytes h n]

theorem incBytes_addCtr {c : List Nat} (h : ValidBytes c) (n : Nat) :
    incBytes (addCtr n c) = addCtr (n + 1) c := by
  rw [addCtr_eq_iterate h n, addCtr_eq_iterate h (n + 1),
    ← Function.iterate_succ_apply' incBytes n c]

theorem iterate_incBytes_addCtr {c : List Nat} (h : ValidBytes c) (m k : Nat) :
    incBytes^[k] (addCtr m c) = addCtr (m + k) c := by
  induction k with
  | zero => rfl
  | succ j ih =>
    rw [Function.iterate_succ_apply', ih, incBytes_addCtr h, Nat.add_assoc]

theorem addCtr_zero (c : List Nat) : addCtr 0 c = c := by
  simp [addCtr, addLE_zero]

/-- An all-0xFF counter increments to the all-zero counter. -/
theorem incBytes_all_ff (n : Nat) :
    incBytes (List.replicate n 255) = List.replicate n 0 := by
  have h : ∀ m, incLE (List.replicate m 255) = List.replicate m 0 := by
    intro m
    induction m with
    | zero => rfl
    | succ k ih => simp [List.replicate_succ, incLE, ih]
  simp [incBytes, List.reverse_replicate, h]

/-! ### The reference keystream

`ksByte E bs iv j` is the `j`-th byte of the infinite counter-mode
keystream determined by the cipher `E`, block size `bs` and initial
counter `iv`: byte `j % bs` of the encryption of counter `iv + j / bs`.
`ksSeg` is the finite segment of that stream starting at position `p`. -/

def ksByte (E : List Nat → List Nat) (bs : Nat) (iv : List Nat) (j : Nat) : Nat :=
  (E (addCtr (j / bs) iv)).getD (j % bs) 0

def ksSeg (E : List Nat → List Nat) (bs : Nat) (iv : List Nat) (p n : Nat) : List Nat :=
  (List.range n).map (fun i => ksByte E bs iv (p + i))

@[simp] theorem ksSeg_length (E : List Nat → List Nat) (bs : Nat) (iv : List Nat)
    (p n : Nat) : (ksSeg E bs iv p n).length = n := by
  simp [ksSeg]

@[simp] theorem ksSeg_zero (E : List Nat → List Nat) (bs : Nat) (iv : List Nat)
    (p : Nat) : ksSeg E bs iv p 0 = [] := by
  simp [ksSeg]

theorem ksSeg_add (E : List Nat → List Nat) (bs : Nat) (iv : List Nat) (p m n : Nat) :
    ksSeg E bs iv p (m + n) = ksSeg E bs iv p m ++ ksSeg E bs iv (p + m) n := by
  simp only [ksSeg, List.range_add, List.map_append, List.map_map]
  congr 1
  apply List.map_congr_left
  intro i _
  simp [Function.comp, Nat.add_assoc]

theorem ksSeg_split (E : List Nat → List Nat) (bs : Nat) (iv : List Nat) {p i n : Nat}
    (h : i ≤ n) :
    ksSeg E bs iv p n = ksSeg E bs iv p i ++ ksSeg E bs iv (p + i) (n - i) := by
  rw [← ksSeg_add]
  congr 1
  omega

theorem ksSeg_take (E : List Nat → List Nat) (bs : Nat) (iv : List Nat) {p i n : Nat}
    (h : i ≤ n) : (ksSeg E bs iv p n).take i = ksSeg E bs iv p i := by
  rw [ksSeg_split E bs iv h, List.take_left' (ksSeg_length E bs iv p i)]

theorem ksSeg_drop (E : List Nat → List Nat) (bs : Nat) (iv : List Nat) {p i n : Nat}
    (h : i ≤ n) : (ksSeg E bs iv p n).drop i = ksSeg E bs iv (p + i) (n - i) := by
  rw [ksSeg_split E bs iv h, List.drop_left' (ksSeg_length E bs iv p i)]

/-- One full aligned block of keystream is the encryption of the counter
for that block index. -/
theorem ksSeg_block (E : List Nat → List Nat) (bs : Nat) (iv : List Nat)
    (hbs : 0 < bs) (hE : ∀ x, (E x).length = bs) (m : Nat) :
    ksSeg E bs iv (m * bs) bs = E (addCtr m iv) := by
  apply List.ext_getElem
  · simp [hE]
  · intro i hi1 hi2
    have hibs : i < bs := by simpa using hi1
    have hdiv : (m * bs + i) / bs = m := by
      rw [show m * bs + i = i + bs * m by ring, Nat.add_mul_div_left _ _ hbs,
        Nat.div_eq_of_lt hibs, Nat.zero_add]
    have hmod : (m * bs + i) % bs = i := by
      rw [show m * bs + i = i + bs * m by ring, Nat.add_mul_mod_self_left,
        Nat.mod_eq_of_lt hibs]
    simp only [ksSeg, List.getElem_map, List.getElem_range, ksByte, hdiv, hmod]
    rw [List.getD_eq_getElem?_getD, List.getElem?_eq_getElem (by rw [hE]; exact hibs)]
    rfl

/-- The run of blocks produced by the fill loops: encrypt the counter,
then continue with the incremented counter. -/
def blockRun (E : List Nat → List Nat) (c : List Nat) : Nat → List Nat
  | 0 => []
  | k + 1 => E c ++ blockRun E (incBytes c) k

/-- An aligned keystream segment of `k` whole blocks is a `blockRun` from
the counter of its first block. -/
theorem ksSeg_blocks (E : List Nat → List Nat) (bs : Nat) (iv : List Nat)
    (hbs : 0 < bs) (hv : ValidBytes iv) (hE : ∀ x, (E x).length = bs) :
    ∀ (k m : Nat), ksSeg E bs iv (m * bs) (k * bs) = blockRun E (addCtr m iv) k := by
  intro k
  induction k with
  | zero => simp [blockRun]
  | succ j ih =>
    intro m
    have hsplit : (j + 1) * bs = bs + j * bs := by ring
    rw [hsplit, ksSeg_add, ksSeg_block E bs iv hbs hE m,
      show m * bs + bs = (m + 1) * bs by ring, ih (m + 1)]
    show _ = E (addCtr m iv) ++ blockRun E (incBytes (addCtr m iv)) j
    rw [incBytes_addCtr hv]

/-! ### The keystream buffer state

`CtrState` is the Go `ctrState` (`ctr.go`) / the buffer part of the shared
`ctr` struct (`part_000`): the live counter, the keystream buffer `out`,
the capacity of the underlying slice, and the consumption cursor
`outUsed`.  Capacities matter because `refill` regrows the slice with
`x.out = x.out[:cap(x.out)]`. -/

structure CtrState where
  ctr : List Nat
  out : List Nat
  cap : Nat
  outUsed : Nat
deriving Repr, DecidableEq

/-- Well-formedness of a buffer state: the cursor stays within the buffer
and the buffer within its capacity. -/
def WF (st : CtrState) : Prop :=
  st.outUsed ≤ st.out.length ∧ st.out.length ≤ st.cap

instance (st : CtrState) : Decidable (WF st) :=
  inferInstanceAs (Decidable (_ ∧ _))

/-- The fill loop shared by `refill` and `setCTR`:
`for remain <= cap - bs { Encrypt(out[remain:], ctr); remain += bs; inc ctr }`.
Returns the produced keystream bytes and the final counter.  The loop
advances `remain` by `bs ≥ 1` each round, so `cap + 1 - remain` rounds of
fuel always suffice; fuel is only a structural-recursion device. -/
def fillLoop (E : List Nat → List Nat) (bs cap : Nat) :
    Nat → List Nat → Nat → List Nat × List Nat
  | 0, c, _ => ([], c)
  | fuel + 1, c, remain =>
    if remain + bs ≤ cap then
      let r := fillLoop E bs cap fuel (incBytes c) (remain + bs)
      (E c ++ r.1, r.2)
    else ([], c)

/-- Go `refill`: move the unconsumed tail to the front, regrow the slice to
its capacity, fill whole blocks while they fit, reset the cursor. -/
def refill (E : List Nat → List Nat) (bs : Nat) (st : CtrState) : CtrState :=
  let tail := st.out.drop st.outUsed
  let r := fillLoop E bs st.cap (st.cap + 1) st.ctr tail.length
  ⟨r.2, tail ++ r.1, st.cap, 0⟩

/-- The conditional refill at the top of the Go `XORKeyStream` loop:
`if x.outUsed >= len(x.out)-bs { x.refill() }` (in `int` arithmetic, i.e.
when `len(out) ≤ outUsed + bs`). -/
def xorStepState (E : List Nat → List Nat) (bs : Nat) (st : CtrState) : CtrState :=
  if st.out.length ≤ st.outUsed + bs then refill E bs st else st

/-- Go `XORKeyStream`, with explicit fuel: while the source is nonempty,
conditionally refill, xor as many bytes as the unconsumed keystream tail
covers, and advance.  `none` means the fuel ran out with source bytes left
over — in particular, a call that is `none` for every fuel is a Go loop
that never terminates. -/
def xorKS (E : List Nat → List Nat) (bs : Nat) :
    Nat → CtrState → List Nat → Option (List Nat × CtrState)
  | 0, st, src => if src = [] then some ([], st) else none
  | fuel + 1, st, src =>
    if src = [] then some ([], st)
    else
      let st1 := xorStepState E bs st
      let avail := st1.out.drop st1.outUsed
      let n := min src.length avail.length
      match xorKS E bs fuel ⟨st1.ctr, st1.out, st1.cap, st1.outUsed + n⟩ (src.drop n) with
      | some (rest, stF) => some (xorBytes src avail ++ rest, stF)
      | none => none

theorem fillLoop_spec (E : List Nat → List Nat) (bs cap : Nat) (hbs : 0 < bs) :
    ∀ (fuel : Nat) (c : List Nat) (remain : Nat), cap + 1 ≤ fuel + remain →
      ∃ k, fillLoop E bs cap fuel c remain = (blockRun E c k, incBytes^[k] c) ∧
        (remain + k * bs ≤ cap ∨ k = 0) ∧ cap < remain + k * bs + bs := by
  intro fuel
  induction fuel with
  | zero =>
    intro c remain h
    exact ⟨0, rfl, Or.inr rfl, by omega⟩
  | succ f ih =>
    intro c remain h
    by_cases hc : remain + bs ≤ cap
    · obtain ⟨k, hk, hcond, hend⟩ := ih (incBytes c) (remain + bs) (by omega)
      refine ⟨k + 1, ?_, ?_, ?_⟩
      · simp only [fillLoop, if_pos hc, hk]
        show (E c ++ blockRun E (incBytes c) k, incBytes^[k] (incBytes c)) = _
        rw [← Function.iterate_succ_apply]
        rfl
      · left
        rw [Nat.succ_mul]
        rcases hcond with hcond | hcond
        · linarith
        · subst hcond; simpa using hc
      · rw [Nat.succ_mul]
        linarith
    · refine ⟨0, ?_, Or.inr rfl, by omega⟩
      simp only [fillLoop, if_neg hc]
      rfl

/-- Full characterization of `refill` on any well-formed state (claim C7's
content): the unconsumed tail moves unchanged to the front, followed by a
maximal run of freshly encrypted counter blocks; the counter is
incremented once per block; the cursor is reset. -/
theorem refill_spec (E : List Nat → List Nat) (bs : Nat) (hbs : 0 < bs)
    (st : CtrState) (h1 : st.outUsed ≤ st.out.length) (h2 : st.out.length ≤ st.cap) :
    ∃ k, refill E bs st =
        ⟨incBytes^[k] st.ctr, st.out.drop st.outUsed ++ blockRun E st.ctr k, st.cap, 0⟩ ∧
      (st.out.length - st.outUsed) + k * bs ≤ st.cap ∧
      st.cap < (st.out.length - st.outUsed) + (k + 1) * bs := by
  obtain ⟨k, hk, hcond, hend⟩ := fillLoop_spec E bs st.cap hbs (st.cap + 1) st.ctr
    (st.out.drop st.outUsed).length (by omega)
  have hlen : (st.out.drop st.outUsed).length = st.out.length - st.outUsed :=
    List.length_drop _ _
  rw [hlen] at hcond hend
  refine ⟨k, ?_, ?_, ?_⟩
  · simp only [refill, hk]
  · rcases hcond with hcond | hcond
    · linarith
    · subst hcond; simpa using (by omega : st.out.length - st.outUsed ≤ st.cap)
  · rw [Nat.succ_mul]
    linarith

/-! ### The representation invariant

A buffer state `st` represents absolute keystream position `p` when its
unconsumed tail is exactly the keystream segment starting at `p`, the tail
ends on a block boundary, and the live counter is the counter of the next
block to be encrypted. -/

structure Rep (E : List Nat → List Nat) (bs : Nat) (iv : List Nat)
    (st : CtrState) (p : Nat) : Prop where
  used_le : st.outUsed ≤ st.out.length
  len_le : st.out.length ≤ st.cap
  tail_eq : st.out.drop st.outUsed = ksSeg E bs iv p (st.out.length - st.outUsed)
  aligned : (p + (st.out.length - st.outUsed)) % bs = 0
  ctr_eq : st.ctr = addCtr ((p + (st.out.length - st.outUsed)) / bs) iv

theorem refill_rep (E : List Nat → List Nat) (bs : Nat) (iv : List Nat)
    (hbs : 0 < bs) (hv : ValidBytes iv) (hE : ∀ x, (E x).length = bs)
    {st : CtrState} {p : Nat} (hrep : Rep E bs iv st p) :
    Rep E bs iv (refill E bs st) p ∧ (refill E bs st).cap = st.cap ∧
      st.cap < ((refill E bs st).out.length - (refill E bs st).outUsed) + bs := by
  obtain ⟨k, hk, hcond, hend⟩ := refill_spec E bs hbs st hrep.used_le hrep.len_le
  have hdvd : bs ∣ (p + (st.out.length - st.outUsed)) :=
    Nat.dvd_of_mod_eq_zero hrep.aligned
  have hm : (p + (st.out.length - st.outUsed)) / bs * bs =
      p + (st.out.length - st.outUsed) := Nat.div_mul_cancel hdvd
  have hblocks : blockRun E st.ctr k =
      ksSeg E bs iv (p + (st.out.length - st.outUsed)) (k * bs) := by
    rw [hrep.ctr_eq, ← ksSeg_blocks E bs iv hbs hv hE k _, hm]
  have hout : (refill E bs st).out =
      ksSeg E bs iv p (st.out.length - st.outUsed + k * bs) := by
    rw [hk]
    show st.out.drop st.outUsed ++ blockRun E st.ctr k = _
    rw [hrep.tail_eq, hblocks, ← ksSeg_add]
  have houtlen : (refill E bs st).out.length = st.out.length - st.outUsed + k * bs := by
    rw [hout, ksSeg_length]
  have hused : (refill E bs st).outUsed = 0 := by rw [hk]
  have hcap : (refill E bs st).cap = st.cap := by rw [hk]
  have hctr : (refill E bs st).ctr = incBytes^[k] st.ctr := by rw [hk]
  refine ⟨⟨?_, ?_, ?_, ?_, ?_⟩, hcap, ?_⟩
  · rw [hused]; omega
  · rw [houtlen, hcap]; exact hcond
  · simp only [hused, hout, houtlen, ksSeg_length, List.drop_zero, Nat.sub_zero]
  · simp only [hused, houtlen, Nat.sub_zero]
    rw [← Nat.add_assoc, Nat.add_mul_mod_self_right]
    exact hrep.aligned
  · simp only [hctr, hused, houtlen, Nat.sub_zero]
    rw [hrep.ctr_eq, iterate_incBytes_addCtr hv]
    congr 1
    rw [← Nat.add_assoc, Nat.add_mul_div_right _ _ hbs]
  · rw [hused, houtlen, Nat.sub_zero]
    rw [Nat.succ_mul] at hend
    linarith

theorem xorStepState_rep (E : List Nat → List Nat) (bs : Nat) (iv : List Nat)
    (hbs : 0 < bs) (hv : ValidBytes iv) (hE : ∀ x, (E x).length = bs)
    {st : CtrState} {p : Nat} (hrep : Rep E bs iv st p) (hcap : bs ≤ st.cap) :
    Rep E bs iv (xorStepState E bs st) p ∧ (xorStepState E bs st).cap = st.cap ∧
      1 ≤ (xorStepState E bs st).out.length - (xorStepState E bs st).outUsed := by
  unfold xorStepState
  by_cases hc : st.out.length ≤ st.outUsed + bs
  · rw [if_pos hc]
    obtain ⟨hrep', hcap', hprog⟩ := refill_rep E bs iv hbs hv hE hrep
    exact ⟨hrep', hcap', by omega⟩
  · rw [if_neg hc]
    exact ⟨hrep, rfl, by omega⟩

/-- Main loop lemma: from any state representing keystream position `p`
whose capacity holds at least one block, `XORKeyStream` with enough fuel
returns the source xored with the keystream segment at `p`, and leaves a
state representing position `p + |src|`. -/
theorem xorKS_spec (E : List Nat → List Nat) (bs : Nat) (iv : List Nat)
    (hbs : 0 < bs) (hv : ValidBytes iv) (hE : ∀ x, (E x).length = bs) :
    ∀ (fuel : Nat) (src : List Nat) (st : CtrState) (p : Nat),
      Rep E bs iv st p → bs ≤ st.cap → src.length ≤ fuel →
      ∃ st', xorKS E bs fuel st src =
          some (xorBytes src (ksSeg E bs iv p src.length), st') ∧
        Rep E bs iv st' (p + src.length) ∧ st'.cap = st.cap := by
  intro fuel
  induction fuel with
  | zero =>
    intro src st p hrep hcap hlen
    have hnil : src = [] := List.eq_nil_of_length_eq_zero (by omega)
    subst hnil
    exact ⟨st, by simp [xorKS, xorBytes], by simpa using hrep, rfl⟩
  | succ f ih =>
    intro src st p hrep hcap hlen
    by_cases hnil : src = []
    · subst hnil
      exact ⟨st, by simp [xorKS, xorBytes], by simpa using hrep, rfl⟩
    · obtain ⟨hrep1, hcap1, hprog⟩ := xorStepState_rep E bs iv hbs hv hE hrep hcap
      set st1 := xorStepState E bs st with hst1
      set tl1 := st1.out.length - st1.outUsed with htl1
      have havlen : (st1.out.drop st1.outUsed).length = tl1 := by
        rw [List.length_drop]
      set n := min src.length tl1 with hn
      have hsrcpos : 1 ≤ src.length := by
        cases src with
        | nil => exact absurd rfl hnil
        | cons a l => simp
      have hnpos : 1 ≤ n := by omega
      have hnsrc : n ≤ src.length := by omega
      have hntl : n ≤ tl1 := by omega
      have havail : st1.out.drop st1.outUsed = ksSeg E bs iv p tl1 := hrep1.tail_eq
      have hrep2 : Rep E bs iv ⟨st1.ctr, st1.out, st1.cap, st1.outUsed + n⟩ (p + n) := by
        have hnewtl : st1.out.length - (st1.outUsed + n) = tl1 - n := by omega
        have h1 := hrep1.used_le
        refine ⟨?_, ?_, ?_, ?_, ?_⟩
        · show st1.outUsed + n ≤ st1.out.length
          omega
        · show st1.out.length ≤ st1.cap
          exact hrep1.len_le
        · show st1.out.drop (st1.outUsed + n) =
            ksSeg E bs iv (p + n) (st1.out.length - (st1.outUsed + n))
          rw [hnewtl]
          have hdd : st1.out.drop (st1.outUsed + n) =
              (st1.out.drop st1.outUsed).drop n :=
            (List.drop_drop n st1.outUsed st1.out).symm
          rw [hdd, havail, ksSeg_drop E bs iv hntl]
        · show (p + n + (st1.out.length - (st1.outUsed + n))) % bs = 0
          rw [hnewtl, show p + n + (tl1 - n) = p + tl1 by omega]
          exact hrep1.aligned
        · show st1.ctr = addCtr ((p + n + (st1.out.length - (st1.outUsed + n))) / bs) iv
          rw [hnewtl, show p + n + (tl1 - n) = p + tl1 by omega]
          exact hrep1.ctr_eq
      obtain ⟨st', hks, hrep', hcap'⟩ := ih (src.drop n)
        ⟨st1.ctr, st1.out, st1.cap, st1.outUsed + n⟩ (p + n) hrep2
        (by simpa using hcap1 ▸ hcap) (by simp; omega)
      have hdroplen : (src.drop n).length = src.length - n := by simp
      rw [hdroplen] at hks hrep'
      have hcomb : xorBytes src (ksSeg E bs iv p tl1) ++
          xorBytes (src.drop n) (ksSeg E bs iv (p + n) (src.length - n)) =
          xorBytes src (ksSeg E bs iv p src.length) := by
        simp only [xorBytes]
        have hfirst : List.zipWith (· ^^^ ·) src (ksSeg E bs iv p tl1) =
            List.zipWith (· ^^^ ·) (src.take n) (ksSeg E bs iv p n) := by
          rw [List.zipWith_eq_zipWith_take_min, ksSeg_length, ← hn,
            ksSeg_take E bs iv hntl]
        have hlen2 : (src.take n).length = (ksSeg E bs iv p n).length := by
          simp [hnsrc]
        rw [hfirst, ← List.zipWith_append _ _ _ _ _ hlen2,
          List.take_append_drop, ← ksSeg_split E bs iv hnsrc]
      refine ⟨st', ?_, ?_, ?_⟩
      · simp only [xorKS, if_neg hnil, ← hst1, havlen, ← hn, hks]
        rw [havail, hcomb]
      · rw [show p + src.length = p + n + (src.length - n) by omega]
        exact hrep'
      · rw [hcap']
        exact hcap1

/-! ### The two engines

`ReadAt` below is the per-call engine of `ctr.go` (a fresh `ctrState` per
call, built by `initCTR`); `sReadAt` is the shared-state engine of
`part_000` (one mutable counter/buffer, re-seeded by `setCTR` under a
mutex).  The underlying `io.ReaderAt` is modelled as a pure function
`src : offset → requested length → SrcRes`; `bytesSource` is Go's
`bytes.Reader`. -/

/-- Buffer sizing in `NewCTRReaderAt`:
`bufSize := streamBufferSize; if bufSize < blockSize { bufSize = blockSize }`
with `streamBufferSize = 512`. -/
def bufSizeFor (bs : Nat) : Nat := if 512 < bs then bs else 512

structure Engine where
  iv : List Nat
  bufSize : Nat
deriving Repr, DecidableEq

/-- `NewCTRReaderAt` of `ctr.go`: the construction panics (here: `none`)
exactly when the IV length differs from the cipher's block size. -/
def NewCTRReaderAt (bs : Nat) (iv : List Nat) : Option Engine :=
  if iv.length = bs then some ⟨iv, bufSizeFor bs⟩ else none

/-- Result of one source read: the bytes delivered and an optional error
code (`none` = success). -/
structure SrcRes where
  data : List Nat
  err : Option Nat
deriving Repr, DecidableEq

/-- The effect of the source writing its delivered bytes into the caller's
buffer `p`: the first `min |data| |p|` entries are replaced, the rest of
`p` keeps its old contents. -/
def sourceWrite (p data : List Nat) : List Nat :=
  data.take p.length ++ p.drop (min data.length p.length)

theorem sourceWrite_length (p data : List Nat) :
    (sourceWrite p data).length = p.length := by
  simp only [sourceWrite, List.length_append, List.length_take, List.length_drop]
  omega

/-- Go's `bytes.Reader.ReadAt`: offsets at or past the end yield
`(0, io.EOF)`; otherwise the available bytes are delivered, with `io.EOF`
when fewer than requested.  `io.EOF` is modelled as error code `1`. -/
def bytesSource (s : List Nat) (off len : Nat) : SrcRes :=
  if s.length ≤ off then ⟨[], some 1⟩
  else
    let d := (s.drop off).take len
    ⟨d, if d.length < len then some 1 else none⟩

/-- `initCTR` of `ctr.go`: derive the counter for block `bN` by direct
addition, refill the fresh buffer, then trim the leading `bOff` bytes so
consumption starts mid-block (`x.out = x.out[bOff:]`, which also shrinks
the slice capacity by `bOff`). -/
def initCTR (E : List Nat → List Nat) (bs bufSize : Nat) (iv : List Nat)
    (bN bOff : Nat) : CtrState :=
  let x : CtrState := ⟨addCtr bN iv, [], bufSize, 0⟩
  let x1 := refill E bs x
  ⟨x1.ctr, x1.out.drop bOff, x1.cap - bOff, x1.outUsed⟩

/-- `ReadAt` of `ctr.go`.  Returns `some (n, err, buffer)` where `n` and
`err` are the returned pair and `buffer` is the caller's buffer after the
call; `none` means the XOR loop ran out of fuel (a non-terminating call if
it happens at every fuel). -/
def ReadAt (E : List Nat → List Nat) (bs bufSize : Nat) (iv : List Nat)
    (src : Nat → Nat → SrcRes) (fuel : Nat) (p : List Nat) (off : Nat) :
    Option (Nat × Option Nat × List Nat) :=
  let bOff := off % bs
  let bN := (off - bOff) / bs
  let state := initCTR E bs bufSize iv bN bOff
  let r := src off p.length
  let p1 := sourceWrite p r.data
  match r.err with
  | some e => some (r.data.length, some e, p1)
  | none =>
    match xorKS E bs fuel state p1 with
    | some (out, _) => some (r.data.length, none, out)
    | none => none

/-- Sequential standard counter-mode encryption with cipher `E`, block
size `bs` and nonce `iv`: the reference `cipher.NewCTR` stream the spec's
round-trip property is stated against. -/
def ctrEncrypt (E : List Nat → List Nat) (bs : Nat) (iv : List Nat)
    (pt : List Nat) : List Nat :=
  xorBytes pt (ksSeg E bs iv 0 pt.length)

/-- The shared engine of `part_000`: the `ctr` struct with its immutable
`iv`, live counter, keystream buffer (plus slice capacity) and cursor. -/
structure SEngine where
  iv : List Nat
  ctr : List Nat
  out : List Nat
  cap : Nat
  outUsed : Nat
deriving Repr, DecidableEq

/-- `NewCTRReaderAt` of `part_000`. -/
def sNew (bs : Nat) (iv : List Nat) : Option SEngine :=
  if iv.length = bs then some ⟨iv, iv, [], bufSizeFor bs, 0⟩ else none

/-- `setCTR` of `part_000`: reset the cursor, re-derive the counter from
the IV by `bN` single increments, then fill whole blocks while they fit in
the buffer's CURRENT LENGTH (`len(x.out)`, not its capacity) and shrink
the buffer to what was produced. -/
def setCTR (E : List Nat → List Nat) (bs : Nat) (x : SEngine) (bN : Nat) : SEngine :=
  let c0 := incBytes^[bN] x.iv
  let r := fillLoop E bs x.out.length (x.out.length + 1) c0 0
  ⟨x.iv, r.2, r.1, x.cap, 0⟩

/-- `ReadAt` of `part_000`: seed the shared state with `setCTR`, fetch,
then XOR in place.  Returns the `(n, err, buffer)` triple together with
the engine state after the call. -/
def sReadAt (E : List Nat → List Nat) (bs : Nat) (src : Nat → Nat → SrcRes)
    (fuel : Nat) (x : SEngine) (p : List Nat) (off : Nat) :
    Option ((Nat × Option Nat × List Nat) × SEngine) :=
  let bOff := off % bs
  let bN := (off - bOff) / bs
  let x1 := setCTR E bs x bN
  let r := src off p.length
  let p1 := sourceWrite p r.data
  match r.err with
  | some e => some ((r.data.length, some e, p1), x1)
  | none =>
    match xorKS E bs fuel ⟨x1.ctr, x1.out, x1.cap, x1.outUsed⟩ p1 with
    | some (out, stF) =>
        some ((r.data.length, none, out), ⟨x1.iv, stF.ctr, stF.out, stF.cap, stF.outUsed⟩)
    | none => none

/-! ### Well-formedness, progress and termination of the loops -/

theorem blockRun_length (E : List Nat → List Nat) (bs : Nat)
    (hE : ∀ x, (E x).length = bs) (k : Nat) :
    ∀ c, (blockRun E c k).length = k * bs := by
  induction k with
  | zero => intro c; simp [blockRun]
  | succ j ih =>
    intro c
    simp only [blockRun, List.length_append, hE, ih, Nat.succ_mul]
    exact Nat.add_comm bs (j * bs)

theorem refill_wf (E : List Nat → List Nat) (bs : Nat) (hbs : 0 < bs)
    (hE : ∀ x, (E x).length = bs) {st : CtrState} (h : WF st) :
    WF (refill E bs st) ∧ (refill E bs st).outUsed = 0 ∧
      (refill E bs st).cap = st.cap ∧
      st.cap < (refill E bs st).out.length + bs := by
  obtain ⟨k, hk, hcond, hend⟩ := refill_spec E bs hbs st h.1 h.2
  have hlen : (refill E bs st).out.length = st.out.length - st.outUsed + k * bs := by
    rw [hk]
    simp [blockRun_length E bs hE k]
  have hused : (refill E bs st).outUsed = 0 := by rw [hk]
  have hcap : (refill E bs st).cap = st.cap := by rw [hk]
  rw [Nat.succ_mul] at hend
  refine ⟨⟨?_, ?_⟩, hused, hcap, ?_⟩
  · rw [hused]; omega
  · rw [hlen, hcap]; exact hcond
  · rw [hlen]; linarith

theorem xorStepState_wf (E : List Nat → List Nat) (bs : Nat) (hbs : 0 < bs)
    (hE : ∀ x, (E x).length = bs) {st : CtrState} (h : WF st) (hcap : bs ≤ st.cap) :
    WF (xorStepState E bs st) ∧ (xorStepState E bs st).cap = st.cap ∧
      1 ≤ (xorStepState E bs st).out.length - (xorStepState E bs st).outUsed := by
  unfold xorStepState
  by_cases hc : st.out.length ≤ st.outUsed + bs
  · rw [if_pos hc]
    obtain ⟨hwf, hused, hcap', hprog⟩ := refill_wf E bs hbs hE h
    exact ⟨hwf, hcap', by omega⟩
  · rw [if_neg hc]
    exact ⟨h, rfl, by omega⟩

/-- The XOR-combine loop preserves well-formedness of the buffer state. -/
theorem xorKS_wf (E : List Nat → List Nat) (bs : Nat) (hbs : 0 < bs)
    (hE : ∀ x, (E x).length = bs) :
    ∀ (fuel : Nat) (src : List Nat) (st : CtrState) (out : List Nat) (st' : CtrState),
      WF st → bs ≤ st.cap → xorKS E bs fuel st src = some (out, st') →
      WF st' ∧ st'.cap = st.cap := by
  intro fuel
  induction fuel with
  | zero =>
    intro src st out st' hwf hcap h
    by_cases hsrc : src = []
    · subst hsrc
      simp [xorKS] at h
      rw [← h.2]
      exact ⟨hwf, rfl⟩
    · simp [xorKS, hsrc] at h
  | succ f ih =>
    intro src st out st' hwf hcap h
    by_cases hsrc : src = []
    · subst hsrc
      simp [xorKS] at h
      rw [← h.2]
      exact ⟨hwf, rfl⟩
    · obtain ⟨hwf1, hcap1, hprog⟩ := xorStepState_wf E bs hbs hE hwf hcap
      set st1 := xorStepState E bs st with hst1
      set n := min src.length (st1.out.drop st1.outUsed).length with hn
      simp only [xorKS, if_neg hsrc, ← hst1, ← hn] at h
      have hwf2 : WF (⟨st1.ctr, st1.out, st1.cap, st1.outUsed + n⟩ : CtrState) := by
        constructor
        · show st1.outUsed + n ≤ st1.out.length
          have h1 := hwf1.1
          have h2 : (st1.out.drop st1.outUsed).length = st1.out.length - st1.outUsed :=
            List.length_drop _ _
          omega
        · exact hwf1.2
      cases hrec : xorKS E bs f ⟨st1.ctr, st1.out, st1.cap, st1.outUsed + n⟩ (src.drop n) with
      | none => rw [hrec] at h; simp at h
      | some v =>
        rw [hrec] at h
        simp only [Option.some.injEq] at h
        obtain ⟨hv, hcap2⟩ := ih (src.drop n) _ v.1 v.2 hwf2 (by simpa using hcap1 ▸ hcap)
          (by rw [hrec])
        injection h with h1 h2
        subst h2
        exact ⟨hv, by rw [hcap2]; exact hcap1⟩

/-- Termination of the XOR-combine loop: as long as the buffer capacity
holds at least one block, every iteration consumes at least one source
byte, so fuel equal to the source length suffices. -/
theorem xorKS_total (E : List Nat → List Nat) (bs : Nat) (hbs : 0 < bs)
    (hE : ∀ x, (E x).length = bs) :
    ∀ (fuel : Nat) (src : List Nat) (st : CtrState),
      WF st → bs ≤ st.cap → src.length ≤ fuel →
      (xorKS E bs fuel st src).isSome := by
  intro fuel
  induction fuel with
  | zero =>
    intro src st hwf hcap hlen
    have : src = [] := List.eq_nil_of_length_eq_zero (by omega)
    subst this
    simp [xorKS]
  | succ f ih =>
    intro src st hwf hcap hlen
    by_cases hsrc : src = []
    · subst hsrc
      simp [xorKS]
    · obtain ⟨hwf1, hcap1, hprog⟩ := xorStepState_wf E bs hbs hE hwf hcap
      set st1 := xorStepState E bs st with hst1
      set n := min src.length (st1.out.drop st1.outUsed).length with hn
      have havlen : (st1.out.drop st1.outUsed).length = st1.out.length - st1.outUsed :=
        List.length_drop _ _
      have hsrcpos : 1 ≤ src.length := by
        cases src with
        | nil => exact absurd rfl hsrc
        | cons a l => simp
      have hnpos : 1 ≤ n := by omega
      have hwf2 : WF (⟨st1.ctr, st1.out, st1.cap, st1.outUsed + n⟩ : CtrState) := by
        constructor
        · show st1.outUsed + n ≤ st1.out.length
          have h1 := hwf1.1
          omega
        · exact hwf1.2
      have hrec := ih (src.drop n) ⟨st1.ctr, st1.out, st1.cap, st1.outUsed + n⟩ hwf2
        (by simpa using hcap1 ▸ hcap) (by simp; omega)
      simp only [xorKS, if_neg hsrc, ← hst1, ← hn]
      cases hx : xorKS E bs f ⟨st1.ctr, st1.out, st1.cap, st1.outUsed + n⟩ (src.drop n) with
      | none => rw [hx] at hrec; simp at hrec
      | some v => simp

/-- Xoring the same keystream twice gives back the data. -/
theorem xorBytes_cancel (a k : List Nat) (h : k.length = a.length) :
    xorBytes (xorBytes a k) k = a := by
  induction a generalizing k with
  | nil =>
    cases k with
    | nil => rfl
    | cons y ys => simp at h
  | cons x xs ih =>
    cases k with
    | nil => simp at h
    | cons y ys =>
      simp only [xorBytes, List.zipWith_cons_cons]
      rw [show List.zipWith (· ^^^ ·) (List.zipWith (· ^^^ ·) xs ys) ys = xs from
        ih ys (by simpa using h)]
      congr 1
      rw [Nat.xor_assoc, Nat.xor_self, Nat.xor_zero]

/-! ### Representation facts for the two seeding procedures -/

/-- Trimming `bOff` leading bytes from a fresh (cursor-zero) represented
buffer advances the represented position by `bOff` and shrinks the slice
capacity accordingly (`x.out = x.out[bOff:]` in `initCTR`). -/
theorem trim_rep (E : List Nat → List Nat) (bs : Nat) (iv : List Nat)
    {st : CtrState} {p : Nat} (hrep : Rep E bs iv st p) (hused : st.outUsed = 0)
    (bOff : Nat) (hoff : bOff ≤ st.out.length) :
    Rep E bs iv ⟨st.ctr, st.out.drop bOff, st.cap - bOff, st.outUsed⟩ (p + bOff) := by
  have hout : st.out = ksSeg E bs iv p st.out.length := by
    have h := hrep.tail_eq
    rw [hused, List.drop_zero, Nat.sub_zero] at h
    exact h
  have halign := hrep.aligned
  have hctr := hrep.ctr_eq
  rw [hused, Nat.sub_zero] at halign hctr
  have hlenle := hrep.len_le
  refine ⟨?_, ?_, ?_, ?_, ?_⟩
  · show st.outUsed ≤ (st.out.drop bOff).length
    rw [hused]
    exact Nat.zero_le _
  · show (st.out.drop bOff).length ≤ st.cap - bOff
    rw [List.length_drop]
    omega
  · show (st.out.drop bOff).drop st.outUsed =
      ksSeg E bs iv (p + bOff) ((st.out.drop bOff).length - st.outUsed)
    rw [hused, List.drop_zero, Nat.sub_zero, List.length_drop, hout,
      ksSeg_length, ksSeg_drop E bs iv hoff]
  · show (p + bOff + ((st.out.drop bOff).length - st.outUsed)) % bs = 0
    rw [hused, Nat.sub_zero, List.length_drop,
      show p + bOff + (st.out.length - bOff) = p + st.out.length by omega]
    exact halign
  · show st.ctr = addCtr ((p + bOff + ((st.out.drop bOff).length - st.outUsed)) / bs) iv
    rw [hused, Nat.sub_zero, List.length_drop,
      show p + bOff + (st.out.length - bOff) = p + st.out.length by omega]
    exact hctr

/-- The per-call state built by `initCTR` represents absolute position
`bN * bs + bOff`, with capacity `bufSize - bOff`; one block of capacity
remains whenever `bs + bOff ≤ bufSize`. -/
theorem initCTR_rep (E : List Nat → List Nat) (bs : Nat) (iv : List Nat)
    (hbs : 0 < bs) (hv : ValidBytes iv) (hE : ∀ x, (E x).length = bs)
    (bufSize bN bOff : Nat) (hbuf : bs + bOff ≤ bufSize) :
    Rep E bs iv (initCTR E bs bufSize iv bN bOff) (bN * bs + bOff) ∧
      bs ≤ (initCTR E bs bufSize iv bN bOff).cap := by
  have hrep0 : Rep E bs iv ⟨addCtr bN iv, [], bufSize, 0⟩ (bN * bs) := by
    refine ⟨by simp, by simp, by simp, ?_, ?_⟩
    · show (bN * bs + (List.length ([] : List Nat) - 0)) % bs = 0
      simp [Nat.mul_mod_left]
    · show addCtr bN iv = addCtr ((bN * bs + (List.length ([] : List Nat) - 0)) / bs) iv
      simp [Nat.mul_div_cancel _ hbs]
  obtain ⟨hrep1, hcap1, hprog1⟩ := refill_rep E bs iv hbs hv hE hrep0
  have hused1 : (refill E bs ⟨addCtr bN iv, [], bufSize, 0⟩).outUsed = 0 := rfl
  have hcap1' : (refill E bs ⟨addCtr bN iv, [], bufSize, 0⟩).cap = bufSize := hcap1
  have hprog1' : bufSize <
      (refill E bs ⟨addCtr bN iv, [], bufSize, 0⟩).out.length -
        (refill E bs ⟨addCtr bN iv, [], bufSize, 0⟩).outUsed + bs := hprog1
  have hoffle : bOff ≤ (refill E bs ⟨addCtr bN iv, [], bufSize, 0⟩).out.length := by
    rw [hused1, Nat.sub_zero] at hprog1'
    omega
  have htrim := trim_rep E bs iv hrep1 hused1 bOff hoffle
  constructor
  · exact htrim
  · show bs ≤ (refill E bs ⟨addCtr bN iv, [], bufSize, 0⟩).cap - bOff
    rw [hcap1']
    omega

/-- The shared state seeded by `setCTR` represents position `bN * bs`
(never the intra-block offset: `part_000` computes `bOff` but does not
trim).  The pre-filled run is bounded by the buffer's current length. -/
theorem setCTR_rep (E : List Nat → List Nat) (bs : Nat) (iv : List Nat)
    (hbs : 0 < bs) (hv : ValidBytes iv) (hE : ∀ y, (E y).length = bs)
    (x : SEngine) (hiv : x.iv = iv) (hxlen : x.out.length ≤ x.cap) (bN : Nat) :
    Rep E bs iv ⟨(setCTR E bs x bN).ctr, (setCTR E bs x bN).out,
        (setCTR E bs x bN).cap, (setCTR E bs x bN).outUsed⟩ (bN * bs) ∧
      (setCTR E bs x bN).cap = x.cap ∧ (setCTR E bs x bN).iv = x.iv ∧
      (setCTR E bs x bN).outUsed = 0 := by
  obtain ⟨k, hk, hcond, hend⟩ := fillLoop_spec E bs x.out.length hbs
    (x.out.length + 1) (incBytes^[bN] x.iv) 0 (by omega)
  have hc0 : incBytes^[bN] x.iv = addCtr bN iv := by
    rw [hiv, addCtr_eq_iterate hv]
  have hout : (setCTR E bs x bN).out = blockRun E (addCtr bN iv) k := by
    show (fillLoop E bs x.out.length (x.out.length + 1) (incBytes^[bN] x.iv) 0).1 = _
    rw [hk, hc0]
  have hctr : (setCTR E bs x bN).ctr = addCtr (bN + k) iv := by
    show (fillLoop E bs x.out.length (x.out.length + 1) (incBytes^[bN] x.iv) 0).2 = _
    rw [hk, hc0, iterate_incBytes_addCtr hv]
  have houtlen : (setCTR E bs x bN).out.length = k * bs := by
    rw [hout, blockRun_length E bs hE k]
  have hkle : k * bs ≤ x.out.length := by
    rcases hcond with h | h
    · omega
    · subst h; simp
  refine ⟨⟨?_, ?_, ?_, ?_, ?_⟩, rfl, rfl, rfl⟩
  · show (setCTR E bs x bN).outUsed ≤ (setCTR E bs x bN).out.length
    show 0 ≤ _
    exact Nat.zero_le _
  · show (setCTR E bs x bN).out.length ≤ (setCTR E bs x bN).cap
    rw [houtlen]
    show k * bs ≤ x.cap
    omega
  · show (setCTR E bs x bN).out.drop (setCTR E bs x bN).outUsed =
      ksSeg E bs iv (bN * bs)
        ((setCTR E bs x bN).out.length - (setCTR E bs x bN).outUsed)
    rw [houtlen, hout]
    show blockRun E (addCtr bN iv) k = ksSeg E bs iv (bN * bs) (k * bs - 0)
    rw [Nat.sub_zero, ksSeg_blocks E bs iv hbs hv hE k bN]
  · show (bN * bs + ((setCTR E bs x bN).out.length - (setCTR E bs x bN).outUsed)) % bs = 0
    rw [houtlen]
    show (bN * bs + (k * bs - 0)) % bs = 0
    rw [Nat.sub_zero, ← Nat.add_mul, Nat.mul_mod_left]
  · show (setCTR E bs x bN).ctr =
      addCtr ((bN * bs + ((setCTR E bs x bN).out.length - (setCTR E bs x bN).outUsed)) / bs) iv
    rw [hctr, houtlen]
    show addCtr (bN + k) iv = addCtr ((bN * bs + (k * bs - 0)) / bs) iv
    rw [Nat.sub_zero, ← Nat.add_mul, Nat.mul_div_cancel _ hbs]

/-! ### End-to-end behaviour of the two `ReadAt`s -/

/-- The block-index computation of both `ReadAt`s:
`bN = (off - off % bs) / bs` is just `off / bs`. -/
theorem bN_eq (off bs : Nat) (hbs : 0 < bs) : (off - off % bs) / bs = off / bs := by
  have h1 := Nat.div_add_mod off bs
  have h2 : off - off % bs = bs * (off / bs) := by
    generalize hq : bs * (off / bs) = q at h1 ⊢
    omega
  rw [h2, Nat.mul_div_cancel_left _ hbs]

theorem off_decomp (off bs : Nat) : off / bs * bs + off % bs = off := by
  rw [Nat.mul_comm]
  exact Nat.div_add_mod off bs

theorem ctrEncrypt_length (E : List Nat → List Nat) (bs : Nat) (iv : List Nat)
    (pt : List Nat) : (ctrEncrypt E bs iv pt).length = pt.length := by
  simp [ctrEncrypt, xorBytes]

/-- Round trip of the per-call engine (`ctr.go`): reading the sequentially
encrypted ciphertext through `ReadAt` returns exactly the plaintext slice,
for any offset and length inside the plaintext, provided one block of
keystream capacity survives the intra-block trim
(`bs + off % bs ≤ bufSize`). -/
theorem ReadAt_roundtrip (E : List Nat → List Nat) (bs : Nat) (iv : List Nat)
    (hbs : 0 < bs) (hv : ValidBytes iv) (hE : ∀ x, (E x).length = bs)
    (pt p : List Nat) (off : Nat) (hbuf : bs + off % bs ≤ bufSizeFor bs)
    (hoff : off < pt.length) (hlen : off + p.length ≤ pt.length) :
    ReadAt E bs (bufSizeFor bs) iv (bytesSource (ctrEncrypt E bs iv pt))
      p.length p off = some (p.length, none, (pt.drop off).take p.length) := by
  have hctlen : (ctrEncrypt E bs iv pt).length = pt.length := ctrEncrypt_length E bs iv pt
  have hdlen : (((ctrEncrypt E bs iv pt).drop off).take p.length).length = p.length := by
    simp only [List.length_take, List.length_drop, hctlen]
    omega
  have hsrc : bytesSource (ctrEncrypt E bs iv pt) off p.length =
      ⟨((ctrEncrypt E bs iv pt).drop off).take p.length, none⟩ := by
    unfold bytesSource
    rw [if_neg (by omega : ¬ (ctrEncrypt E bs iv pt).length ≤ off)]
    show (⟨((ctrEncrypt E bs iv pt).drop off).take p.length,
      if (((ctrEncrypt E bs iv pt).drop off).take p.length).length < p.length
      then some 1 else none⟩ : SrcRes) = _
    rw [if_neg (by rw [hdlen]; exact Nat.lt_irrefl _)]
  have hp1 : sourceWrite p (((ctrEncrypt E bs iv pt).drop off).take p.length) =
      ((ctrEncrypt E bs iv pt).drop off).take p.length := by
    unfold sourceWrite
    rw [hdlen, Nat.min_self, List.drop_length, List.take_take, Nat.min_self,
      List.append_nil]
  obtain ⟨hrep2, hcap2⟩ := initCTR_rep E bs iv hbs hv hE (bufSizeFor bs)
    ((off - off % bs) / bs) (off % bs) hbuf
  rw [bN_eq off bs hbs, off_decomp off bs] at hrep2
  rw [bN_eq off bs hbs] at hcap2
  obtain ⟨st', hks, hrep', hcap'⟩ := xorKS_spec E bs iv hbs hv hE p.length
    (((ctrEncrypt E bs iv pt).drop off).take p.length)
    (initCTR E bs (bufSizeFor bs) iv (off / bs) (off % bs)) off hrep2 hcap2
    (by rw [hdlen])
  have hdata : xorBytes (((ctrEncrypt E bs iv pt).drop off).take p.length)
      (ksSeg E bs iv off p.length) = (pt.drop off).take p.length := by
    have hslice : ((ctrEncrypt E bs iv pt).drop off).take p.length =
        xorBytes ((pt.drop off).take p.length) (ksSeg E bs iv off p.length) := by
      unfold ctrEncrypt xorBytes
      rw [List.drop_zipWith, List.take_zipWith,
        ksSeg_drop E bs iv (Nat.le_of_lt hoff), Nat.zero_add,
        ksSeg_take E bs iv (by omega : p.length ≤ pt.length - off)]
    rw [hslice, xorBytes_cancel _ _ (by simp; omega)]
  unfold ReadAt
  simp only [bN_eq off bs hbs, hsrc, hp1, hks, hdata, hdlen]

/-- Full behaviour of the shared engine's `ReadAt` (`part_000`) from ANY
well-formed engine state: the returned triple depends only on the offset,
the buffer and the source — never on the incoming counter/buffer/cursor
state — and well-formedness is preserved.  On success the span is xored
with the keystream starting at the containing BLOCK boundary
`(off / bs) * bs` (the intra-block offset is computed but never applied by
this implementation). -/
theorem sReadAt_spec (E : List Nat → List Nat) (bs : Nat) (iv : List Nat)
    (hbs : 0 < bs) (hv : ValidBytes iv) (hE : ∀ y, (E y).length = bs)
    (src : Nat → Nat → SrcRes) (x : SEngine) (hiv : x.iv = iv)
    (hxlen : x.out.length ≤ x.cap) (hxcap : bs ≤ x.cap)
    (p : List Nat) (off : Nat) (fuel : Nat) (hfuel : p.length ≤ fuel) :
    ∃ x', sReadAt E bs src fuel x p off =
        some (((src off p.length).data.length, (src off p.length).err,
          match (src off p.length).err with
          | some _ => sourceWrite p (src off p.length).data
          | none => xorBytes (sourceWrite p (src off p.length).data)
              (ksSeg E bs iv (off / bs * bs) p.length)), x') ∧
      x'.iv = iv ∧ x'.out.length ≤ x'.cap ∧ x'.cap = x.cap := by
  obtain ⟨hrep1, hcap1, hiv1, hused1⟩ := setCTR_rep E bs iv hbs hv hE x hiv hxlen
    ((off - off % bs) / bs)
  rw [bN_eq off bs hbs] at hrep1 hcap1 hiv1 hused1
  cases herr : (src off p.length).err with
  | some e =>
    refine ⟨setCTR E bs x (off / bs), ?_, ?_, ?_, ?_⟩
    · unfold sReadAt
      simp only [bN_eq off bs hbs, herr]
    · rw [hiv1, hiv]
    · exact hrep1.len_le
    · exact hcap1
  | none =>
    obtain ⟨st', hks, hrep', hcap'⟩ := xorKS_spec E bs iv hbs hv hE fuel
      (sourceWrite p (src off p.length).data)
      ⟨(setCTR E bs x (off / bs)).ctr, (setCTR E bs x (off / bs)).out,
        (setCTR E bs x (off / bs)).cap, (setCTR E bs x (off / bs)).outUsed⟩
      (off / bs * bs) hrep1
      (by show bs ≤ (setCTR E bs x (off / bs)).cap; rw [hcap1]; exact hxcap)
      (by rw [sourceWrite_length]; exact hfuel)
    rw [sourceWrite_length] at hks
    refine ⟨⟨(setCTR E bs x (off / bs)).iv, st'.ctr, st'.out, st'.cap, st'.outUsed⟩,
      ?_, ?_, ?_, ?_⟩
    · unfold sReadAt
      simp only [bN_eq off bs hbs, herr, hks]
    · rw [show (setCTR E bs x (off / bs)).iv = x.iv from rfl, hiv]
    · exact hrep'.len_le
    · show st'.cap = x.cap
      rw [hcap']
      exact hcap1

/-! ### Starvation: what happens when the trimmed capacity drops below one
block.  `initCTR` slices `x.out = x.out[bOff:]`, so the capacity seen by
later refills is `bufSize - bOff`; when that is smaller than the block
size, `refill` can never produce a new block and the XOR loop stops
consuming. -/

theorem xorKS_nil (E : List Nat → List Nat) (bs : Nat) :
    ∀ (fuel : Nat) (st : CtrState), xorKS E bs fuel st [] = some ([], st) := by
  intro fuel st
  cases fuel <;> simp [xorKS]

theorem fillLoop_starved (E : List Nat → List Nat) (bs cap : Nat) (hcap : cap < bs)
    (c : List Nat) (remain : Nat) :
    fillLoop E bs cap (cap + 1) c remain = ([], c) := by
  show (if remain + bs ≤ cap then _ else (([] : List Nat), c)) = ([], c)
  rw [if_neg (by omega)]

theorem refill_starved (E : List Nat → List Nat) (bs : Nat) {st : CtrState}
    (hcap : st.cap < bs) :
    refill E bs st = ⟨st.ctr, st.out.drop st.outUsed, st.cap, 0⟩ := by
  show (⟨(fillLoop E bs st.cap (st.cap + 1) st.ctr (st.out.drop st.outUsed).length).2,
    st.out.drop st.outUsed ++
      (fillLoop E bs st.cap (st.cap + 1) st.ctr (st.out.drop st.outUsed).length).1,
    st.cap, 0⟩ : CtrState) = _
  rw [fillLoop_starved E bs st.cap hcap, List.append_nil]

/-- With capacity below one block, the loop consumes the unconsumed tail
and then spins forever: once the source is longer than the tail, every
fuel gives `none` (the Go loop does not terminate). -/
theorem xorKS_starved (E : List Nat → List Nat) (bs : Nat) :
    ∀ (fuel : Nat) (st : CtrState) (src : List Nat),
      st.cap < bs → st.outUsed ≤ st.out.length → st.out.length ≤ st.cap →
      st.out.length - st.outUsed < src.length →
      xorKS E bs fuel st src = none := by
  intro fuel
  induction fuel with
  | zero =>
    intro st src h1 h2 h3 h4
    have hne : src ≠ [] := by
      intro h
      subst h
      simp at h4
    simp [xorKS, hne]
  | succ f ih =>
    intro st src h1 h2 h3 h4
    have hne : src ≠ [] := by
      intro h
      subst h
      simp at h4
    have hstep : xorStepState E bs st = ⟨st.ctr, st.out.drop st.outUsed, st.cap, 0⟩ := by
      unfold xorStepState
      rw [if_pos (by omega), refill_starved E bs h1]
    have htail : (st.out.drop st.outUsed).length = st.out.length - st.outUsed :=
      List.length_drop _ _
    have hmin : min src.length ((st.out.drop st.outUsed).drop 0).length =
        st.out.length - st.outUsed := by
      rw [List.drop_zero, htail]
      omega
    simp only [xorKS, if_neg hne, hstep, hmin]
    rw [ih ⟨st.ctr, st.out.drop st.outUsed, st.cap, 0 + (st.out.length - st.outUsed)⟩
      (src.drop (st.out.length - st.outUsed)) h1 (by simp [htail])
      (by simp [htail]; omega) (by simp [htail]; omega)]

/-! ### Generic source and slice facts used by the claim theorems -/

theorem le_bufSizeFor (bs : Nat) : bs ≤ bufSizeFor bs := by
  unfold bufSizeFor
  split <;> omega

theorem bytesSource_inbounds (s : List Nat) (off len : Nat) (hoff : off < s.length)
    (hlen : off + len ≤ s.length) :
    bytesSource s off len = ⟨(s.drop off).take len, none⟩ := by
  have hdlen : ((s.drop off).take len).length = len := by
    simp only [List.length_take, List.length_drop]
    omega
  unfold bytesSource
  rw [if_neg (by omega)]
  show (⟨(s.drop off).take len,
    if ((s.drop off).take len).length < len then some 1 else none⟩ : SrcRes) = _
  rw [if_neg (by rw [hdlen]; exact Nat.lt_irrefl _)]

theorem sourceWrite_exact (p d : List Nat) (h : d.length = p.length) :
    sourceWrite p d = d := by
  unfold sourceWrite
  rw [h, Nat.min_self, List.drop_length, ← h, List.take_length, List.append_nil]

/-- Slicing the sequentially encrypted stream and xoring the matching
keystream segment recovers the plaintext slice. -/
theorem slice_decrypt (E : List Nat → List Nat) (bs : Nat) (iv pt : List Nat)
    (off len : Nat) (hoff : off ≤ pt.length) (hlen : off + len ≤ pt.length) :
    xorBytes (((ctrEncrypt E bs iv pt).drop off).take len)
      (ksSeg E bs iv off len) = (pt.drop off).take len := by
  have hslice : ((ctrEncrypt E bs iv pt).drop off).take len =
      xorBytes ((pt.drop off).take len) (ksSeg E bs iv off len) := by
    unfold ctrEncrypt xorBytes
    rw [List.drop_zipWith, List.take_zipWith, ksSeg_drop E bs iv hoff, Nat.zero_add,
      ksSeg_take E bs iv (by omega : len ≤ pt.length - off)]
  rw [hslice, xorBytes_cancel _ _ (by simp; omega)]

/-! ### Concrete ciphers for the counterexamples and witnesses -/

/-- A two-byte block cipher whose keystream distinguishes the two
positions inside a block. -/
def twoCipher : List Nat → List Nat := fun _ => [1, 2]

def twoIv : List Nat := [0, 0]

/-- A one-byte block cipher with an all-zero keystream. -/
def oneCipher : List Nat → List Nat := fun _ => [0]

def oneIv : List Nat := [0]

/-- A 300-byte block cipher (block size larger than 256, still below the
512-byte stream buffer) with an all-zero keystream. -/
def padCipher : List Nat → List Nat := fun _ => List.replicate 300 0

def padIv : List Nat := List.replicate 300 0

theorem getD_replicate_zero (n i : Nat) :
    (List.replicate n (0 : Nat)).getD i 0 = 0 := by
  rw [List.getD_eq_getElem?_getD, List.getElem?_replicate]
  by_cases h : i < n
  · rw [if_pos h]
    rfl
  · rw [if_neg h]
    rfl

theorem padKsSeg (p n : Nat) :
    ksSeg padCipher 300 padIv p n = List.replicate n 0 := by
  apply List.ext_getElem
  · simp
  · intro i h1 h2
    simp only [ksSeg, List.getElem_map, List.getElem_range, ksByte, padCipher,
      List.getElem_replicate]
    exact getD_replicate_zero 300 _

theorem zipXorZeros : ∀ n : Nat,
    List.zipWith (· ^^^ ·) (List.replicate n (0 : Nat)) (List.replicate n 0) =
      List.replicate n 0 := by
  intro n
  induction n with
  | zero => rfl
  | succ k ih => simp [List.replicate_succ, ih]

theorem padCt_eq :
    ctrEncrypt padCipher 300 padIv (List.replicate 351 0) = List.replicate 351 0 := by
  unfold ctrEncrypt
  rw [List.length_replicate, padKsSeg]
  exact zipXorZeros 351

/-- The per-call read at offset 250 with the 300-byte cipher never
terminates: the trimmed capacity `512 - 250 = 262` is below one block, so
after the 50 leading keystream bytes are consumed the loop starves. -/
theorem readAt_pad_none (fuel : Nat) :
    ReadAt padCipher 300 (bufSizeFor 300) padIv
      (bytesSource (ctrEncrypt padCipher 300 padIv (List.replicate 351 0))) fuel
      (List.replicate 101 0) 250 = none := by
  have hsrc : bytesSource (ctrEncrypt padCipher 300 padIv (List.replicate 351 0)) 250
      (List.replicate 101 (0 : Nat)).length = ⟨List.replicate 101 0, none⟩ := by
    rw [padCt_eq]
    decide
  have hp1 : sourceWrite (List.replicate 101 (0 : Nat)) (List.replicate 101 0) =
      List.replicate 101 0 := by decide
  have hstarve : xorKS padCipher 300 fuel
      (initCTR padCipher 300 (bufSizeFor 300) padIv ((250 - 250 % 300) / 300) (250 % 300))
      (List.replicate 101 0) = none :=
    xorKS_starved padCipher 300 fuel _ (List.replicate 101 0) (by decide) (by decide)
      (by decide) (by decide)
  unfold ReadAt
  simp only [hsrc, hp1, hstarve]

/-! ### Claim theorems -/

/-- C2: for every non-negative block index and every initial counter of
length `B ≥ 1`, the derived counter block equals the initial counter plus
the block index as a big-endian unsigned integer, reduced modulo
`2^(8*B)`; and the direct addition of `initCTR` (`addCtr`) agrees with the
repeated-increment derivation of `setCTR` (`incBytes^[bN]`). -/
theorem claim_C2_counter_derivation (iv : List Nat) (bN : Nat)
    (hB : 1 ≤ iv.length) (hv : ValidBytes iv) :
    beVal (addCtr bN iv) = (beVal iv + bN) % 2 ^ (8 * iv.length) ∧
    addCtr bN iv = incBytes^[bN] iv := by
  constructor
  · rw [beVal_addCtr hv bN]
    congr 1
    rw [show (256 : Nat) = 2 ^ 8 from rfl, ← pow_mul]
  · exact addCtr_eq_iterate hv bN

theorem claim_C2_witness :
    beVal (addCtr 300 [0, 255]) = (beVal [0, 255] + 300) % 2 ^ (8 * 2) ∧
    addCtr 300 [0, 255] = incBytes^[300] [0, 255] :=
  claim_C2_counter_derivation [0, 255] 300 (by decide) (by decide)

/-- C4: the counter increment is a big-endian increment with byte-wise
carry from the last byte toward the first (value `+1 mod 2^(8*len)`), an
all-0xFF counter increments to the all-zero counter, and overflow wraps
silently (the increment is total and length-preserving, never an error). -/
theorem claim_C4_increment (c : List Nat) (n : Nat) (hv : ValidBytes c) :
    beVal (incBytes c) = (beVal c + 1) % 2 ^ (8 * c.length) ∧
    incBytes (List.replicate n 255) = List.replicate n 0 ∧
    (incBytes c).length = c.length := by
  refine ⟨?_, incBytes_all_ff n, incBytes_length c⟩
  rw [beVal_incBytes hv]
  congr 1
  rw [show (256 : Nat) = 2 ^ 8 from rfl, ← pow_mul]

theorem claim_C4_witness :
    beVal (incBytes [255, 255]) = (beVal [255, 255] + 1) % 2 ^ (8 * 2) ∧
    incBytes (List.replicate 3 255) = List.replicate 3 0 ∧
    (incBytes [255, 255]).length = ([255, 255] : List Nat).length :=
  claim_C4_increment [255, 255] 3 (by decide)

/-- C6: construction fails (the Go code panics) if and only if the IV
length differs from the block size, for both implementations; and during
reads the error component returned is always exactly the underlying
source's error, so a length mismatch is never surfaced mid-stream. -/
theorem claim_C6_construction (bs : Nat) (iv : List Nat) :
    ((NewCTRReaderAt bs iv).isNone ↔ iv.length ≠ bs) ∧
    ((sNew bs iv).isNone ↔ iv.length ≠ bs) ∧
    (∀ (E : List Nat → List Nat) (bufSize : Nat) (src : Nat → Nat → SrcRes)
      (fuel : Nat) (p : List Nat) (off : Nat) (r : Nat × Option Nat × List Nat),
      ReadAt E bs bufSize iv src fuel p off = some r →
      r.2.1 = (src off p.length).err) := by
  refine ⟨?_, ?_, ?_⟩
  · unfold NewCTRReaderAt
    by_cases h : iv.length = bs <;> simp [h]
  · unfold sNew
    by_cases h : iv.length = bs <;> simp [h]
  · intro E bufSize src fuel p off r h
    unfold ReadAt at h
    cases herr : (src off p.length).err with
    | some e =>
      simp only [herr] at h
      rw [← Option.some_inj.mp h]
    | none =>
      simp only [herr] at h
      cases hx : xorKS E bs fuel
          (initCTR E bs bufSize iv ((off - off % bs) / bs) (off % bs))
          (sourceWrite p (src off p.length).data) with
      | none => rw [hx] at h; exact absurd h (by simp)
      | some v =>
        rw [hx] at h
        rw [← Option.some_inj.mp h]

theorem claim_C6_witness :
    (((NewCTRReaderAt 1 [0]).isNone ↔ ([0] : List Nat).length ≠ 1) ∧
      ((sNew 1 [0]).isNone ↔ ([0] : List Nat).length ≠ 1)) ∧
    ((0 : Nat), (none : Option Nat), ([] : List Nat)).2.1 =
      ((fun _ _ => (⟨[], none⟩ : SrcRes)) (0 : Nat) ([] : List Nat).length).err := by
  refine ⟨⟨(claim_C6_construction 1 [0]).1, (claim_C6_construction 1 [0]).2.1⟩, ?_⟩
  exact (claim_C6_construction 1 [0]).2.2 oneCipher 512 (fun _ _ => ⟨[], none⟩) 0 [] 0
    (0, none, []) (by decide)

/-- C7: from any well-formed buffer state, `refill` moves the unconsumed
tail unchanged to the front, appends a run of freshly encrypted counter
blocks (one counter increment per block), stops exactly when the free
space drops below one block, and resets the cursor to zero. -/
theorem claim_C7_refill (E : List Nat → List Nat) (bs : Nat) (hbs : 0 < bs)
    (st : CtrState) (hwf : WF st) :
    ∃ k, refill E bs st =
        ⟨incBytes^[k] st.ctr, st.out.drop st.outUsed ++ blockRun E st.ctr k,
          st.cap, 0⟩ ∧
      st.out.length - st.outUsed + k * bs ≤ st.cap ∧
      st.cap < st.out.length - st.outUsed + (k + 1) * bs :=
  refill_spec E bs hbs st hwf.1 hwf.2

theorem claim_C7_witness :
    ∃ k, refill oneCipher 1 ⟨[5], [7, 8], 4, 1⟩ =
        ⟨incBytes^[k] [5], ([7, 8] : List Nat).drop 1 ++ blockRun oneCipher [5] k,
          4, 0⟩ ∧
      ([7, 8] : List Nat).length - 1 + k * 1 ≤ 4 ∧
      4 < ([7, 8] : List Nat).length - 1 + (k + 1) * 1 :=
  claim_C7_refill oneCipher 1 (by decide) ⟨[5], [7, 8], 4, 1⟩ (by decide)

/-- C8: the cursor always satisfies `0 ≤ used ≤ length(buffer)` (the lower
bound is inherent to `Nat`): `refill` preserves well-formedness and resets
the cursor, the XOR-combine loop refills before consuming whenever fewer
than one full block of unconsumed bytes remains, and the whole loop
preserves the invariant across every consumption step. -/
theorem claim_C8_invariant (E : List Nat → List Nat) (bs : Nat) (hbs : 0 < bs)
    (hE : ∀ x, (E x).length = bs) (st : CtrState) (hwf : WF st) :
    (WF (refill E bs st) ∧ (refill E bs st).outUsed = 0) ∧
    (st.out.length - st.outUsed < bs → xorStepState E bs st = refill E bs st) ∧
    (∀ (fuel : Nat) (src out : List Nat) (st' : CtrState), bs ≤ st.cap →
      xorKS E bs fuel st src = some (out, st') → WF st') := by
  refine ⟨⟨(refill_wf E bs hbs hE hwf).1, (refill_wf E bs hbs hE hwf).2.1⟩, ?_, ?_⟩
  · intro h
    unfold xorStepState
    rw [if_pos (by omega)]
  · intro fuel src out st' hcap h
    exact (xorKS_wf E bs hbs hE fuel src st out st' hwf hcap h).1

theorem claim_C8_witness :
    ((WF (refill oneCipher 1 ⟨[5], [7, 8], 4, 1⟩) ∧
      (refill oneCipher 1 ⟨[5], [7, 8], 4, 1⟩).outUsed = 0) ∧
    (([7, 8] : List Nat).length - 1 < 1 →
      xorStepState oneCipher 1 ⟨[5], [7, 8], 4, 1⟩ =
        refill oneCipher 1 ⟨[5], [7, 8], 4, 1⟩)) ∧
    WF ⟨[8], [8, 0, 0, 0], 4, 1⟩ := by
  have h := claim_C8_invariant oneCipher 1 (by decide) (fun x => rfl)
    ⟨[5], [7, 8], 4, 1⟩ (by decide)
  refine ⟨⟨h.1, h.2.1⟩, ?_⟩
  exact h.2.2 1 [9] [1] ⟨[8], [8, 0, 0, 0], 4, 1⟩ (by decide) (by decide)

/-- C10 (counterexample): an engine constructed through `NewCTRReaderAt`
with a 300-byte block cipher, used by `ReadAt` at offset 250, hands
`XORKeyStream` a state whose trimmed capacity (512 - 250 = 262) is below
one block; on a 101-byte source the loop never terminates (no fuel
suffices). -/
theorem claim_C10_cex : ¬ ∃ (fuel : Nat) (r : List Nat × CtrState),
    xorKS padCipher 300 fuel
      (initCTR padCipher 300 (bufSizeFor 300) padIv ((260 - 260 % 300) / 300) (260 % 300))
      (List.replicate 41 0) = some r := by
  rintro ⟨fuel, r, h⟩
  rw [xorKS_starved padCipher 300 fuel _ (List.replicate 41 0) (by decide) (by decide)
    (by decide) (by decide)] at h
  exact Option.noConfusion h

/-- C10 (amended): `XORKeyStream` terminates on every finite input from
every well-formed state whose buffer capacity holds at least one block —
fuel equal to the source length suffices because each refill leaves at
least one unconsumed keystream byte.  The buffer `NewCTRReaderAt`
allocates satisfies the capacity bound (`bs ≤ bufSizeFor bs`); the states
the per-call `ReadAt` produces satisfy it only when `bs + off % bs` fits
in the buffer (hence always when the block size is at most 256). -/
theorem claim_C10_termination (E : List Nat → List Nat) (bs : Nat) (hbs : 0 < bs)
    (hE : ∀ x, (E x).length = bs) :
    bs ≤ bufSizeFor bs ∧
    (∀ (st : CtrState) (src : List Nat) (fuel : Nat), WF st → bs ≤ st.cap →
      src.length ≤ fuel → (xorKS E bs fuel st src).isSome) := by
  refine ⟨le_bufSizeFor bs, ?_⟩
  intro st src fuel hwf hcap hfuel
  exact xorKS_total E bs hbs hE fuel src st hwf hcap hfuel

theorem claim_C10_witness :
    (1 ≤ bufSizeFor 1) ∧
    (xorKS oneCipher 1 2 ⟨[0], [], 512, 0⟩ [3, 4]).isSome := by
  have h := claim_C10_termination oneCipher 1 (by decide) (fun x => rfl)
  exact ⟨h.1, h.2 ⟨[0], [], 512, 0⟩ [3, 4] 2 (by decide) (by decide) (by decide)⟩

/-- C3 (counterexample): when the source reports an error together with a
positive byte count — as Go's `bytes.Reader` does on a partial read at end
of data — `ReadAt` returns that count, not zero: reading 2 bytes at offset
1 of a 2-byte source yields `(1, EOF)`. -/
theorem claim_C3_cex :
    (ReadAt oneCipher 1 (bufSizeFor 1) oneIv (bytesSource [9, 9]) 2 [0, 0] 1).map
      (fun r => r.1) ≠ some 0 := by
  decide

/-- C3 (amended): when the underlying source reports an error, both
`ReadAt`s return the source's byte count and the error unchanged, and do
not perform the XOR transformation — the caller's buffer holds exactly
the raw bytes the source wrote. -/
theorem claim_C3_error_passthrough (E : List Nat → List Nat) (bs bufSize : Nat)
    (iv : List Nat) (src : Nat → Nat → SrcRes) (fuel : Nat) (p : List Nat)
    (off : Nat) (e : Nat) (herr : (src off p.length).err = some e) :
    ReadAt E bs bufSize iv src fuel p off =
      some ((src off p.length).data.length, some e,
        sourceWrite p (src off p.length).data) ∧
    (∀ x : SEngine, sReadAt E bs src fuel x p off =
      some (((src off p.length).data.length, some e,
        sourceWrite p (src off p.length).data),
        setCTR E bs x ((off - off % bs) / bs))) := by
  constructor
  · unfold ReadAt
    simp only [herr]
  · intro x
    unfold sReadAt
    simp only [herr]

theorem claim_C3_witness :
    ReadAt oneCipher 1 512 oneIv (fun _ _ => ⟨[3], some 9⟩) 0 [7] 5 =
      some (((fun _ _ => (⟨[3], some 9⟩ : SrcRes)) 5 ([7] : List Nat).length).data.length,
        some 9, sourceWrite [7] [3]) :=
  (claim_C3_error_passthrough oneCipher 1 512 oneIv (fun _ _ => ⟨[3], some 9⟩) 0 [7] 5 9
    rfl).1

/-- C9 (counterexample): a zero-length read does NOT always return "no
error": over a `bytes.Reader` source, any offset at or past the end of
the data yields `io.EOF` even for an empty output buffer, and `ReadAt`
passes that error through — here an empty source at offset 0. -/
theorem claim_C9_cex :
    (ReadAt oneCipher 1 (bufSizeFor 1) oneIv (bytesSource []) 0 [] 0).map
      (fun r => r.2.1) ≠ some none := by
  decide

/-- C9 (amended): a zero-length read returns zero bytes and no error
whenever the underlying source's zero-length fetch succeeds with no data —
in particular over a bytes source at any in-bounds offset, and likewise
for the shared engine; in general the zero-length read merely reproduces
the source's outcome. -/
theorem claim_C9_zero_length (E : List Nat → List Nat) (bs bufSize : Nat)
    (iv : List Nat) (src : Nat → Nat → SrcRes) (fuel : Nat) (off : Nat)
    (hsrc : src off 0 = ⟨[], none⟩) :
    ReadAt E bs bufSize iv src fuel [] off = some (0, none, []) ∧
    (∀ s : List Nat, off < s.length →
      ReadAt E bs bufSize iv (bytesSource s) fuel [] off = some (0, none, [])) ∧
    (∀ x : SEngine, ∃ x', sReadAt E bs src fuel x [] off = some ((0, none, []), x')) := by
  have hzero : ∀ (E' : List Nat → List Nat) (bs' bufSize' : Nat) (iv' : List Nat)
      (src' : Nat → Nat → SrcRes), src' off 0 = ⟨[], none⟩ →
      ReadAt E' bs' bufSize' iv' src' fuel [] off = some (0, none, []) := by
    intro E' bs' bufSize' iv' src' hs
    unfold ReadAt
    simp only [List.length_nil, hs]
    rw [show sourceWrite [] ([] : List Nat) = [] from rfl,
      xorKS_nil E' bs' fuel _]
  refine ⟨hzero E bs bufSize iv src hsrc, ?_, ?_⟩
  · intro s hoff
    refine hzero E bs bufSize iv (bytesSource s) ?_
    unfold bytesSource
    rw [if_neg (by omega)]
    rfl
  · intro x
    refine ⟨⟨(setCTR E bs x ((off - off % bs) / bs)).iv,
      (setCTR E bs x ((off - off % bs) / bs)).ctr,
      (setCTR E bs x ((off - off % bs) / bs)).out,
      (setCTR E bs x ((off - off % bs) / bs)).cap,
      (setCTR E bs x ((off - off % bs) / bs)).outUsed⟩, ?_⟩
    unfold sReadAt
    simp only [List.length_nil, hsrc]
    rw [show sourceWrite [] ([] : List Nat) = [] from rfl, xorKS_nil E bs fuel _]

theorem claim_C9_witness :
    ReadAt oneCipher 1 512 oneIv (bytesSource [5]) 3 [] 0 = some (0, none, []) :=
  (claim_C9_zero_length oneCipher 1 512 oneIv (bytesSource [5]) 3 0 (by decide)).2.1 [5]
    (by decide)

/-- C1 (counterexample): the round trip fails as universally stated.
First, the shared-state engine (`part_000`) computes the intra-block
offset but never trims the keystream, so an unaligned read decrypts with a
misaligned keystream: at offset 1 with a 2-byte cipher the returned bytes
differ from the plaintext slice.  Second, the per-call engine (`ctr.go`)
with a 300-byte block cipher never returns at offset 250 (the trimmed
buffer capacity drops below one block and the XOR loop spins forever). -/
theorem claim_C1_cex :
    ((sReadAt twoCipher 2 (bytesSource (ctrEncrypt twoCipher 2 twoIv [5, 6, 7])) 2
        ⟨twoIv, twoIv, [], bufSizeFor 2, 0⟩ [0, 0] 1).map (fun y => y.1.2.2) ≠
      some ((([5, 6, 7] : List Nat).drop 1).take 2)) ∧
    (¬ ∃ fuel : Nat, ReadAt padCipher 300 (bufSizeFor 300) padIv
        (bytesSource (ctrEncrypt padCipher 300 padIv (List.replicate 351 0))) fuel
        (List.replicate 101 0) 250 =
      some (101, none, ((List.replicate 351 (0 : Nat)).drop 250).take 101)) := by
  constructor
  · decide
  · rintro ⟨fuel, h⟩
    rw [readAt_pad_none fuel] at h
    exact Option.noConfusion h

/-- C1 (amended): the round trip holds in two regimes.  For the per-call
engine (`ctr.go`) and any block cipher of block size at most 256 bytes,
`ReadAt` over the sequentially encrypted ciphertext returns exactly the
plaintext slice at every offset and length within the plaintext —
including reads at a block boundary, one byte before and one byte after.
For the shared-state engine (`part_000`), the same holds for every block
size but only at block-aligned offsets (it never applies the intra-block
trim). -/
theorem claim_C1_roundtrip :
    (∀ (E : List Nat → List Nat) (bs : Nat) (iv pt p : List Nat) (off : Nat),
      0 < bs → bs ≤ 256 → ValidBytes iv → (∀ x, (E x).length = bs) →
      off < pt.length → off + p.length ≤ pt.length →
      ReadAt E bs (bufSizeFor bs) iv (bytesSource (ctrEncrypt E bs iv pt))
        p.length p off = some (p.length, none, (pt.drop off).take p.length)) ∧
    (∀ (E : List Nat → List Nat) (bs : Nat) (iv pt p : List Nat) (bN : Nat),
      0 < bs → ValidBytes iv → (∀ x, (E x).length = bs) →
      bN * bs < pt.length → bN * bs + p.length ≤ pt.length →
      ∃ x', sReadAt E bs (bytesSource (ctrEncrypt E bs iv pt)) p.length
        ⟨iv, iv, [], bufSizeFor bs, 0⟩ p (bN * bs) =
        some ((p.length, none, (pt.drop (bN * bs)).take p.length), x')) := by
  constructor
  · intro E bs iv pt p off hbs h256 hv hE hoff hlen
    apply ReadAt_roundtrip E bs iv hbs hv hE pt p off ?_ hoff hlen
    have hmod : off % bs < bs := Nat.mod_lt off hbs
    unfold bufSizeFor
    rw [if_neg (by omega)]
    omega
  · intro E bs iv pt p bN hbs hv hE hoff hlen
    obtain ⟨x', hread, _, _, _⟩ := sReadAt_spec E bs iv hbs hv hE
      (bytesSource (ctrEncrypt E bs iv pt)) ⟨iv, iv, [], bufSizeFor bs, 0⟩ rfl
      (by simp) (le_bufSizeFor bs) p (bN * bs) p.length (Nat.le_refl _)
    have hctlen := ctrEncrypt_length E bs iv pt
    have hsrc : bytesSource (ctrEncrypt E bs iv pt) (bN * bs) p.length =
        ⟨((ctrEncrypt E bs iv pt).drop (bN * bs)).take p.length, none⟩ :=
      bytesSource_inbounds _ _ _ (by omega) (by omega)
    have hdlen : (((ctrEncrypt E bs iv pt).drop (bN * bs)).take p.length).length =
        p.length := by
      simp only [List.length_take, List.length_drop, hctlen]
      omega
    rw [hsrc] at hread
    simp only at hread
    rw [hdlen, sourceWrite_exact p _ hdlen, Nat.mul_div_cancel _ hbs,
      slice_decrypt E bs iv pt (bN * bs) p.length (by omega) hlen] at hread
    exact ⟨x', hread⟩

theorem claim_C1_witness :
    (ReadAt twoCipher 2 (bufSizeFor 2) twoIv
        (bytesSource (ctrEncrypt twoCipher 2 twoIv [5, 6, 7])) 2 [0, 0] 1 =
      some (2, none, (([5, 6, 7] : List Nat).drop 1).take 2)) ∧
    (∃ x', sReadAt twoCipher 2
        (bytesSource (ctrEncrypt twoCipher 2 twoIv [5, 6, 7, 8])) 2
        ⟨twoIv, twoIv, [], bufSizeFor 2, 0⟩ [0, 0] (1 * 2) =
      some ((2, none, (([5, 6, 7, 8] : List Nat).drop (1 * 2)).take 2), x')) := by
  constructor
  · exact claim_C1_roundtrip.1 twoCipher 2 twoIv [5, 6, 7] [0, 0] 1 (by decide)
      (by decide) (by decide) (fun x => rfl) (by decide) (by decide)
  · exact claim_C1_roundtrip.2 twoCipher 2 twoIv [5, 6, 7, 8] [0, 0] 1 (by decide)
      (by decide) (fun x => rfl) (by decide) (by decide)

/-- C5: the bytes a read returns do not depend on the order or history of
prior calls.  For the shared-state engine, the result triple of `ReadAt`
is a function of the offset, buffer and source alone, so reading at `o2`
then `o1` returns, call for call, the same triples as reading at `o1` then
`o2` on a freshly constructed identical engine.  (The per-call engine of
`ctr.go` shares no state between calls, so the same holds for it
trivially: `ReadAt` is a pure function there.) -/
theorem claim_C5_order_independence (E : List Nat → List Nat) (bs : Nat)
    (iv : List Nat) (hbs : 0 < bs) (hv : ValidBytes iv)
    (hE : ∀ y, (E y).length = bs) (src : Nat → Nat → SrcRes)
    (p1 p2 : List Nat) (o1 o2 : Nat) (ho : o1 < o2)
    (f1 f2 : Nat) (hf1 : p1.length ≤ f1) (hf2 : p2.length ≤ f2) :
    ∃ r1 r2 y1 y2 z1 z2,
      sReadAt E bs src f2 ⟨iv, iv, [], bufSizeFor bs, 0⟩ p2 o2 = some (r2, y1) ∧
      sReadAt E bs src f1 y1 p1 o1 = some (r1, y2) ∧
      sReadAt E bs src f1 ⟨iv, iv, [], bufSizeFor bs, 0⟩ p1 o1 = some (r1, z1) ∧
      sReadAt E bs src f2 z1 p2 o2 = some (r2, z2) := by
  obtain ⟨y1, hA, hy1iv, hy1len, hy1cap⟩ := sReadAt_spec E bs iv hbs hv hE src
    ⟨iv, iv, [], bufSizeFor bs, 0⟩ rfl (by simp) (le_bufSizeFor bs) p2 o2 f2 hf2
  obtain ⟨y2, hB, _, _, _⟩ := sReadAt_spec E bs iv hbs hv hE src y1 hy1iv hy1len
    (by rw [hy1cap]; exact le_bufSizeFor bs) p1 o1 f1 hf1
  obtain ⟨z1, hC, hz1iv, hz1len, hz1cap⟩ := sReadAt_spec E bs iv hbs hv hE src
    ⟨iv, iv, [], bufSizeFor bs, 0⟩ rfl (by simp) (le_bufSizeFor bs) p1 o1 f1 hf1
  obtain ⟨z2, hD, _, _, _⟩ := sReadAt_spec E bs iv hbs hv hE src z1 hz1iv hz1len
    (by rw [hz1cap]; exact le_bufSizeFor bs) p2 o2 f2 hf2
  exact ⟨_, _, y1, y2, z1, z2, hA, hB, hC, hD⟩

theorem claim_C5_witness :
    ∃ r1 r2 y1 y2 z1 z2,
      sReadAt oneCipher 1 (bytesSource [1, 2, 3]) 1
          ⟨oneIv, oneIv, [], bufSizeFor 1, 0⟩ [0] 1 = some (r2, y1) ∧
      sReadAt oneCipher 1 (bytesSource [1, 2, 3]) 1 y1 [0] 0 = some (r1, y2) ∧
      sReadAt oneCipher 1 (bytesSource [1, 2, 3]) 1
          ⟨oneIv, oneIv, [], bufSizeFor 1, 0⟩ [0] 0 = some (r1, z1) ∧
      sReadAt oneCipher 1 (bytesSource [1, 2, 3]) 1 z1 [0] 1 = some (r2, z2) :=
  claim_C5_order_independence oneCipher 1 oneIv (by decide) (by decide)
    (fun y => rfl) (bytesSource [1, 2, 3]) [0] [0] 0 1 (by decide) 1 1
    (by decide) (by decide)

end GoAesCtr
